import Mathlib

/-!
Verification of the EMLE electrostatic-embedding engine (`emle/models.py`).

The Python source operates on torch tensors of floats; here every tensor is a
function out of `Fin`-indexed types into `ℝ`, matrices are Mathlib `Matrix`
values, and `torch.linalg.solve A b` is modelled as `A⁻¹.mulVec b` (the code
raises on a singular matrix; theorems about the solution therefore carry an
`IsUnit A.det` hypothesis).  Runtime errors (out-of-range tensor indexing) are
modelled with `Option`.
-/

namespace EmleEngine

/-- Fixed length-unit conversion constant from `EMLE.forward`
(`ANGSTROM_TO_BOHR = 1.8897261258369282`). -/
def ANGSTROM_TO_BOHR : ℝ := 1.8897261258369282

/-- The Gauss error function, `erf x = 2/sqrt(pi) * integral of exp(-t^2) from 0 to x`
(`torch.erf`). -/
noncomputable def erf (x : ℝ) : ℝ :=
  2 / Real.sqrt Real.pi * ∫ t in (0:ℝ)..x, Real.exp (-t ^ 2)

/-- Pairwise distance matrix of the QM atoms (`torch.cdist(xyz, xyz)` in
`EMLE._get_r_data`). -/
noncomputable def r_mat {n : ℕ} (xyz : Fin n → Fin 3 → ℝ) (i j : Fin n) : ℝ :=
  Real.sqrt (∑ c : Fin 3, (xyz i c - xyz j c) ^ 2)

/-- Guarded inverse-distance matrix
(`torch.where(r_mat == 0.0, 0.0, 1.0 / r_mat)` in `EMLE._get_r_data`). -/
noncomputable def r_inv {n : ℕ} (xyz : Fin n → Fin 3 → ℝ) (i j : Fin n) : ℝ :=
  if r_mat xyz i j = 0 then 0 else 1 / r_mat xyz i j

/-- Entry of the flattened tensor `t21 = -id2 * r_inv2 ** 3` of
`EMLE._get_r_data`; the row is (atom `p.1`, component `p.2`) and the column is
(atom `q.1`, component `q.2`). -/
noncomputable def t21 {n : ℕ} (xyz : Fin n → Fin 3 → ℝ) (p q : Fin n × Fin 3) : ℝ :=
  -(if p.2 = q.2 then (1:ℝ) else 0) * r_inv xyz p.1 q.1 ^ 3

/-- Entry of the flattened tensor `t22 = 3 * outer * r_inv2 ** 5` of
`EMLE._get_r_data`, where `outer` is the stacked matrix of outer products of
`rr_mat = xyz[:, None, :] - xyz[None, :, :]`. -/
noncomputable def t22 {n : ℕ} (xyz : Fin n → Fin 3 → ℝ) (p q : Fin n × Fin 3) : ℝ :=
  3 * ((xyz p.1 q.2 - xyz q.1 q.2) * (xyz p.1 p.2 - xyz q.1 p.2)) * r_inv xyz p.1 q.1 ^ 5

/-- `EMLE._get_T0_gaussian`: `t01 * erf(r / (s_mat * sqrt 2))`. -/
noncomputable def get_T0_gaussian (t01v r s : ℝ) : ℝ :=
  t01v * erf (r / (s * Real.sqrt 2))

/-- `EMLE._get_T0_slater`: `(1 - (1 + r/(s*2)) * exp(-r/s)) / r`. -/
noncomputable def get_T0_slater (r s : ℝ) : ℝ :=
  (1 - (1 + r / (s * 2)) * Real.exp (-r / s)) / r

/-- `EMLE._get_f1_slater`. -/
noncomputable def get_f1_slater (r s : ℝ) : ℝ :=
  get_T0_slater r s * r - Real.exp (-r / s) / s * (0.5 + r / (s * 2)) * r

/-- `EMLE._lambda3`: `1 - exp(-au3)`. -/
noncomputable def lambda3 (u : ℝ) : ℝ := 1 - Real.exp (-u)

/-- `EMLE._lambda5`: `1 - (1 + au3) * exp(-au3)`. -/
noncomputable def lambda5 (u : ℝ) : ℝ := 1 - (1 + u) * Real.exp (-u)

/-- `EMLE._get_T2_thole`: `lambda3(au3) * tr21 + lambda5(au3) * tr22`. -/
noncomputable def get_T2_thole (tr21 tr22 u : ℝ) : ℝ :=
  lambda3 u * tr21 + lambda5 u * tr22

/-- The inner `N x N` block of the QEq matrix built by `EMLE._get_A_QEq`:
the Gaussian-damped Coulomb kernel with the diagonal overwritten (through the
`mask` arithmetic of the source) by the self-energy `1/(s_gauss*sqrt(pi))`,
where `s_gauss = s * a_QEq`. -/
noncomputable def A_QEq_inner {n : ℕ} (xyz : Fin n → Fin 3 → ℝ) (s : Fin n → ℝ)
    (aQEq : ℝ) : Matrix (Fin n) (Fin n) ℝ :=
  fun i j =>
    (if i = j then (1:ℝ) else 0) *
        (if i = j then 1 / (s i * aQEq * Real.sqrt Real.pi) else 0) +
      (1 - (if i = j then (1:ℝ) else 0)) *
        get_T0_gaussian (r_inv xyz i j) (r_mat xyz i j)
          (Real.sqrt ((s i * aQEq) ^ 2 + (s j * aQEq) ^ 2))

/-- The bordered `(N+1) x (N+1)` QEq matrix of `EMLE._get_A_QEq`: the inner
block is copied into a matrix of ones (so the final row and column stay 1) and
the bottom-right entry is set to 0. -/
noncomputable def get_A_QEq {n : ℕ} (xyz : Fin n → Fin 3 → ℝ) (s : Fin n → ℝ)
    (aQEq : ℝ) : Matrix (Fin (n + 1)) (Fin (n + 1)) ℝ :=
  fun p q =>
    if hp : (p : ℕ) < n then
      (if hq : (q : ℕ) < n then A_QEq_inner xyz s aQEq ⟨p, hp⟩ ⟨q, hq⟩ else 1)
    else (if (q : ℕ) < n then 1 else 0)

/-- Right-hand side `torch.hstack([-chi, q_total])` of `EMLE._get_q`. -/
noncomputable def qeq_b {n : ℕ} (chi : Fin n → ℝ) (qTotal : ℝ) (p : Fin (n + 1)) : ℝ :=
  if hp : (p : ℕ) < n then -chi ⟨p, hp⟩ else qTotal

/-- `EMLE._get_q`: solve the bordered QEq system and keep the first `N`
entries (`torch.linalg.solve(A, b)[:-1]`), discarding the Lagrange
multiplier. -/
noncomputable def get_q {n : ℕ} (xyz : Fin n → Fin 3 → ℝ) (s chi : Fin n → ℝ)
    (aQEq qTotal : ℝ) (i : Fin n) : ℝ :=
  (get_A_QEq xyz s aQEq)⁻¹.mulVec (qeq_b chi qTotal) i.castSucc

/-- Effective atomic polarizability `alpha = (-60 * q_val * s**3) * k` from
`EMLE._get_A_thole`. -/
noncomputable def alpha {n : ℕ} (s qVal k : Fin n → ℝ) (i : Fin n) : ℝ :=
  -60 * qVal i * s i ^ 3 * k i

/-- Reduced distance `au3 = r ** 3 / sqrt(alphap_mat)` of `EMLE._get_A_thole`,
with `alphap = alpha * a_Thole`. -/
noncomputable def au3 {n : ℕ} (xyz : Fin n → Fin 3 → ℝ) (s qVal k : Fin n → ℝ)
    (aThole : ℝ) (b i : Fin n) : ℝ :=
  r_mat xyz b i ^ 3 /
    Real.sqrt ((alpha s qVal k b * aThole) * (alpha s qVal k i * aThole))

/-- The `(3N) x (3N)` Thole system matrix of `EMLE._get_A_thole`:
`A = -T2_thole(...)` with the three diagonal entries of each atom overwritten
(through the `mask` arithmetic of the source) by `1/alpha`. -/
noncomputable def get_A_thole {n : ℕ} (xyz : Fin n → Fin 3 → ℝ)
    (s qVal k : Fin n → ℝ) (aThole : ℝ) :
    Matrix (Fin n × Fin 3) (Fin n × Fin 3) ℝ :=
  fun p q =>
    (if p = q then (1:ℝ) else 0) * (if p = q then 1 / alpha s qVal k p.1 else 0) +
      (1 - (if p = q then (1:ℝ) else 0)) *
        (-get_T2_thole (t21 xyz p q) (t22 xyz p q) (au3 xyz s qVal k aThole p.1 q.1))

/-- QM-to-MM distances (`EMLE._get_mesh_data`). -/
noncomputable def mesh_r {nq nm : ℕ} (xyzq : Fin nq → Fin 3 → ℝ)
    (xyzm : Fin nm → Fin 3 → ℝ) (a : Fin nq) (m : Fin nm) : ℝ :=
  Real.sqrt (∑ c : Fin 3, (xyzm m c - xyzq a c) ^ 2)

/-- First component `1.0 / r` of `mesh_data`. -/
noncomputable def mesh0 {nq nm : ℕ} (xyzq : Fin nq → Fin 3 → ℝ)
    (xyzm : Fin nm → Fin 3 → ℝ) (a : Fin nq) (m : Fin nm) : ℝ :=
  1 / mesh_r xyzq xyzm a m

/-- Second component `T0_slater(r, s[:, None])` of `mesh_data`. -/
noncomputable def mesh1 {nq nm : ℕ} (s : Fin nq → ℝ) (xyzq : Fin nq → Fin 3 → ℝ)
    (xyzm : Fin nm → Fin 3 → ℝ) (a : Fin nq) (m : Fin nm) : ℝ :=
  get_T0_slater (mesh_r xyzq xyzm a m) (s a)

/-- Third component `-rr / r ** 3` of `mesh_data`, with
`rr = xyz_mesh[None, :, :] - xyz[:, None, :]`. -/
noncomputable def mesh2 {nq nm : ℕ} (xyzq : Fin nq → Fin 3 → ℝ)
    (xyzm : Fin nm → Fin 3 → ℝ) (a : Fin nq) (m : Fin nm) (c : Fin 3) : ℝ :=
  -(xyzm m c - xyzq a c) / mesh_r xyzq xyzm a m ^ 3

/-- `EMLE._get_mu_ind`: solve the Thole system against the Slater-damped
static field of the MM charges and reshape the `3N` solution into `N` dipole
vectors. -/
noncomputable def get_mu_ind {nq nm : ℕ} (xyzq : Fin nq → Fin 3 → ℝ)
    (xyzm : Fin nm → Fin 3 → ℝ) (q : Fin nm → ℝ) (s qVal k : Fin nq → ℝ)
    (aThole : ℝ) (a : Fin nq) (c : Fin 3) : ℝ :=
  (get_A_thole xyzq s qVal k aThole)⁻¹.mulVec
    (fun p => ∑ m, mesh2 xyzq xyzm p.1 m p.2 *
      get_f1_slater (1 / mesh0 xyzq xyzm p.1 m) (s p.1 * 2) * q m) (a, c)

/-- `EMLE._get_vpot_q`: `torch.sum(T0 * q[:, None], dim=0)`. -/
noncomputable def get_vpot_q {nq nm : ℕ} (q : Fin nq → ℝ)
    (T0 : Fin nq → Fin nm → ℝ) (m : Fin nm) : ℝ :=
  ∑ a, T0 a m * q a

/-- `EMLE._get_vpot_mu`: `-tensordot(T1, mu, ((0, 2), (0, 1)))`. -/
noncomputable def get_vpot_mu {nq nm : ℕ} (mu : Fin nq → Fin 3 → ℝ)
    (T1 : Fin nq → Fin nm → Fin 3 → ℝ) (m : Fin nm) : ℝ :=
  -∑ a, ∑ c, T1 a m c * mu a c

/-- Per-species GPR evaluation for one atom: the body of the loop of
`EMLE._gpr` (`K_mol_ref2 @ c[i, :n_ref] + ref_mean[i]` with the squared
dot-product kernel over the first `n_ref i` reference vectors; slicing clamps
at `maxRef` exactly as `[:n_ref]` does). -/
noncomputable def gpr_pred {nZ maxRef D nA : ℕ} (nRef : Fin nZ → ℕ)
    (rf : Fin nZ → Fin maxRef → Fin D → ℝ) (refMean : Fin nZ → ℝ)
    (c : Fin nZ → Fin maxRef → ℝ) (feat : Fin nA → Fin D → ℝ)
    (z : Fin nZ) (a : Fin nA) : ℝ :=
  (∑ j : Fin maxRef,
      if (j : ℕ) < nRef z then (∑ d, rf z j d * feat a d) ^ 2 * c z j else 0) +
    refMean z

/-- `EMLE._gpr`: the result tensor starts as zeros and the loop over species
`i` overwrites the entries of the atoms whose species id equals `i`. -/
noncomputable def gpr {nZ maxRef D nA : ℕ} (nRef : Fin nZ → ℕ)
    (rf : Fin nZ → Fin maxRef → Fin D → ℝ) (refMean : Fin nZ → ℝ)
    (c : Fin nZ → Fin maxRef → ℝ) (feat : Fin nA → Fin D → ℝ)
    (zid : Fin nA → ℤ) : Fin nA → ℝ :=
  (List.range nZ).foldl
    (fun res i => fun b =>
      if h : i < nZ then
        (if zid b = (i : ℤ) then gpr_pred nRef rf refMean c feat ⟨i, h⟩ b else res b)
      else res b)
    (fun _ => 0)

/-- Per-species kernel matrix `K = (ref_features @ ref_features.T) ** 2` from
`EMLE._get_Kinv`. -/
noncomputable def Kmat {nZ maxRef D : ℕ} (rf : Fin nZ → Fin maxRef → Fin D → ℝ)
    (z : Fin nZ) : Matrix (Fin maxRef) (Fin maxRef) ℝ :=
  fun j j2 => (∑ d, rf z j d * rf z j2 d) ^ 2

/-- `EMLE._get_Kinv`: `inv(K + sigma**2 * eye(n))`. -/
noncomputable def get_Kinv {nZ maxRef D : ℕ} (rf : Fin nZ → Fin maxRef → Fin D → ℝ)
    (sigma : ℝ) (z : Fin nZ) : Matrix (Fin maxRef) (Fin maxRef) ℝ :=
  (Kmat rf z + sigma ^ 2 • (1 : Matrix (Fin maxRef) (Fin maxRef) ℝ))⁻¹

/-- Per-species reference mean `ref_mean = sum(ref_values, dim=1) / n_ref`
computed in `EMLE.__init__`. -/
noncomputable def ref_mean_calc {nZ maxRef : ℕ} (vals : Fin nZ → Fin maxRef → ℝ)
    (nRef : Fin nZ → ℕ) (z : Fin nZ) : ℝ :=
  (∑ j, vals z j) / (nRef z : ℝ)

/-- Per-species GPR weight coefficients `c = Kinv @ (ref_values - ref_mean)`
computed in `EMLE.__init__`. -/
noncomputable def ref_coeffs {nZ maxRef D : ℕ} (rf : Fin nZ → Fin maxRef → Fin D → ℝ)
    (sigma : ℝ) (vals : Fin nZ → Fin maxRef → ℝ) (nRef : Fin nZ → ℕ)
    (z : Fin nZ) (j : Fin maxRef) : ℝ :=
  (get_Kinv rf sigma z).mulVec (fun j2 => vals z j2 - ref_mean_calc vals nRef z) j

/-- The species-to-index table built in `EMLE.__init__`: an array of length
`max([1, 6, 7, 8, 16]) + 1 = 17` filled with `-1`, with `map[s] = i` for the
supported species. -/
def species_map_list : List ℤ :=
  [-1, 0, -1, -1, -1, -1, 1, 2, 3, -1, -1, -1, -1, -1, -1, -1, 4]

/-- Torch tensor indexing into `species_map` succeeds exactly when the index
is within `[-17, 17)` (negative indices wrap); anything else raises. -/
def speciesInBounds (z : ℤ) : Prop := -17 ≤ z ∧ z < 17

instance (z : ℤ) : Decidable (speciesInBounds z) :=
  inferInstanceAs (Decidable (-17 ≤ z ∧ z < 17))

/-- The value produced by `self._species_map[atomic_numbers]` for an in-bounds
atomic number, with torch wrap-around semantics for negative indices. -/
def species_map_at (z : ℤ) : ℤ :=
  if 0 ≤ z ∧ z < 17 then species_map_list.getD z.toNat 0
  else if -17 ≤ z ∧ z < 0 then species_map_list.getD (z + 17).toNat 0
  else 0

/-- The species-id lookup as performed at the start of `EMLE.forward`:
`none` models the runtime indexing error raised by torch for an out-of-range
atomic number. -/
def species_lookup (z : ℤ) : Option ℤ :=
  if speciesInBounds z then some (species_map_at z) else none

/-- Torch tensor indexing `v[i]` with an `int64` index: in-range indices are
read directly, negative indices in `[-len, 0)` wrap around. -/
noncomputable def tindex {m : ℕ} (v : Fin m → ℝ) (i : ℤ) : ℝ :=
  if h : 0 ≤ i ∧ i < (m : ℤ) then v ⟨i.toNat, by omega⟩
  else if h2 : -(m : ℤ) ≤ i ∧ i < 0 then v ⟨(i + m).toNat, by omega⟩
  else 0

/-- The immutable per-species model data registered as buffers in
`EMLE.__init__`. -/
structure EMLEParams (nZ maxRef D : ℕ) where
  nRef : Fin nZ → ℕ
  ref_features : Fin nZ → Fin maxRef → Fin D → ℝ
  ref_mean_s : Fin nZ → ℝ
  c_s : Fin nZ → Fin maxRef → ℝ
  ref_mean_chi : Fin nZ → ℝ
  c_chi : Fin nZ → Fin maxRef → ℝ
  ref_mean_k : Fin nZ → ℝ
  c_k : Fin nZ → Fin maxRef → ℝ
  q_core : Fin nZ → ℝ
  k_Z : Fin nZ → ℝ
  a_QEq : ℝ
  a_Thole : ℝ
  q_total : ℝ
  alphaModeSpecies : Bool

/-- The body of `EMLE.forward` after the empty-MM check and the species
lookup: AEV normalisation, GPR predictions, unit conversion, QEq solve, Thole
solve and the two energy reductions. -/
noncomputable def emle_energy {nQM nMM nZ maxRef D : ℕ} (P : EMLEParams nZ maxRef D)
    (sid : Fin nQM → ℤ) (aev0 : Fin nQM → Fin D → ℝ) (chargesMM : Fin nMM → ℝ)
    (xyzQM : Fin nQM → Fin 3 → ℝ) (xyzMM : Fin nMM → Fin 3 → ℝ) : ℝ × ℝ :=
  let aev : Fin nQM → Fin D → ℝ :=
    fun a d => aev0 a d / Real.sqrt (∑ d2, aev0 a d2 ^ 2)
  let s := gpr P.nRef P.ref_features P.ref_mean_s P.c_s aev sid
  let chi := gpr P.nRef P.ref_features P.ref_mean_chi P.c_chi aev sid
  let xyzq : Fin nQM → Fin 3 → ℝ := fun a c => xyzQM a c * ANGSTROM_TO_BOHR
  let xyzm : Fin nMM → Fin 3 → ℝ := fun m c => xyzMM m c * ANGSTROM_TO_BOHR
  let qCore : Fin nQM → ℝ := fun a => tindex P.q_core (sid a)
  let k : Fin nQM → ℝ :=
    if P.alphaModeSpecies then fun a => tindex P.k_Z (sid a)
    else gpr P.nRef P.ref_features P.ref_mean_k P.c_k aev sid
  let q : Fin nQM → ℝ := fun i => get_q xyzq s chi P.a_QEq P.q_total i
  let qVal : Fin nQM → ℝ := fun a => q a - qCore a
  let mu := get_mu_ind xyzq xyzm chargesMM s qVal k P.a_Thole
  let vpotStatic : Fin nMM → ℝ := fun m =>
    get_vpot_q qCore (mesh0 xyzq xyzm) m + get_vpot_q qVal (mesh1 s xyzq xyzm) m
  let eStatic := ∑ m, vpotStatic m * chargesMM m
  let eInd := (∑ m, get_vpot_mu mu (mesh2 xyzq xyzm) m * chargesMM m) * 0.5
  (eStatic, eInd)

/-- `EMLE.forward`: an empty MM charge list short-circuits to the zero
2-vector before anything else runs; otherwise the species lookup happens and
the full pipeline is evaluated.  `aevC` stands for the external
`self._aev_computer` followed by the fixed boolean mask. -/
noncomputable def EMLE_forward {nQM nMM nZ maxRef D : ℕ} (P : EMLEParams nZ maxRef D)
    (aevC : (Fin nQM → Fin 3 → ℝ) → Fin nQM → Fin D → ℝ)
    (atomicNumbers : Fin nQM → ℤ) (chargesMM : Fin nMM → ℝ)
    (xyzQM : Fin nQM → Fin 3 → ℝ) (xyzMM : Fin nMM → Fin 3 → ℝ) :
    Option (ℝ × ℝ) :=
  if nMM = 0 then some (0, 0)
  else if _h : ∀ a, speciesInBounds (atomicNumbers a) then
    some (emle_energy P (fun a => species_map_at (atomicNumbers a)) (aevC xyzQM)
      chargesMM xyzQM xyzMM)
  else none

/-- `ANI2xEMLE.forward`: the species lookup and the in-vacuo ANI2x evaluation
(`ani` models the external `self._ani2x` model) happen first; an empty MM
charge list then returns `(E_vac, 0, 0)` with the in-vacuo term unchanged. -/
noncomputable def ANI2xEMLE_forward {nQM nMM nZ maxRef D : ℕ}
    (P : EMLEParams nZ maxRef D)
    (ani : (Fin nQM → ℤ) → (Fin nQM → Fin 3 → ℝ) → ℝ)
    (aevC : (Fin nQM → Fin 3 → ℝ) → Fin nQM → Fin D → ℝ)
    (atomicNumbers : Fin nQM → ℤ) (chargesMM : Fin nMM → ℝ)
    (xyzQM : Fin nQM → Fin 3 → ℝ) (xyzMM : Fin nMM → Fin 3 → ℝ) :
    Option (ℝ × ℝ × ℝ) :=
  if _h : ∀ a, speciesInBounds (atomicNumbers a) then
    if nMM = 0 then some (ani atomicNumbers xyzQM, 0, 0)
    else some (ani atomicNumbers xyzQM,
      emle_energy P (fun a => species_map_at (atomicNumbers a)) (aevC xyzQM)
        chargesMM xyzQM xyzMM)
  else none

/-! Concrete instances used by the witness theorems. -/

noncomputable def xyzW1 : Fin 1 → Fin 3 → ℝ := fun _ _ => 0

noncomputable def xyzW2 : Fin 2 → Fin 3 → ℝ := fun i _ => (i : ℕ)

noncomputable def xyzW0 : Fin 2 → Fin 3 → ℝ := fun _ _ => 0

def nRefW1 : Fin 1 → ℕ := fun _ => 1

noncomputable def rfW1 : Fin 1 → Fin 1 → Fin 1 → ℝ := fun _ _ _ => 1

noncomputable def rmW1 : Fin 1 → ℝ := fun _ => 2

noncomputable def cW1 : Fin 1 → Fin 1 → ℝ := fun _ _ => 3

noncomputable def featW1 : Fin 1 → Fin 1 → ℝ := fun _ _ => 1

def zidW1 : Fin 1 → ℤ := fun _ => 0

noncomputable def PW : EMLEParams 1 1 1 :=
  ⟨fun _ => 1, fun _ _ _ => 0, fun _ => 0, fun _ _ => 0, fun _ => 0, fun _ _ => 0,
   fun _ => 0, fun _ _ => 0, fun _ => 0, fun _ => 0, 1, 1, 0, true⟩

noncomputable def aevW : (Fin 1 → Fin 3 → ℝ) → Fin 1 → Fin 1 → ℝ := fun _ _ _ => 1

noncomputable def aniW : (Fin 1 → ℤ) → (Fin 1 → Fin 3 → ℝ) → ℝ := fun _ _ => 1

noncomputable def vW : Fin 5 → ℝ := fun i => (i : ℕ)

noncomputable def rfW2 : Fin 1 → Fin 2 → Fin 1 → ℝ := fun _ _ _ => 0

noncomputable def valsW : Fin 1 → Fin 2 → ℝ := fun _ j => if j = 0 then 5 else 0

/-! Theorems. -/

/-- The loop of `EMLE._gpr` after processing species `0, ..., m-1`: an atom's
entry holds the species prediction if its id is a processed species, else the
initial zero. -/
theorem gpr_foldl_aux {nZ maxRef D nA : ℕ} (nRef : Fin nZ → ℕ)
    (rf : Fin nZ → Fin maxRef → Fin D → ℝ) (refMean : Fin nZ → ℝ)
    (c : Fin nZ → Fin maxRef → ℝ) (feat : Fin nA → Fin D → ℝ)
    (zid : Fin nA → ℤ) (m : ℕ) (hm : m ≤ nZ) (a : Fin nA) :
    ((List.range m).foldl
      (fun res i => fun b =>
        if h : i < nZ then
          (if zid b = (i : ℤ) then gpr_pred nRef rf refMean c feat ⟨i, h⟩ b else res b)
        else res b)
      (fun _ => 0)) a
    = if h : 0 ≤ zid a ∧ zid a < (m : ℤ) then
        gpr_pred nRef rf refMean c feat ⟨(zid a).toNat, by omega⟩ a
      else 0 := by
  induction m with
  | zero =>
      rw [List.range_zero, List.foldl_nil, dif_neg]
      omega
  | succ m ih =>
      have hm2 : m ≤ nZ := by omega
      have hmlt : m < nZ := by omega
      simp only [List.range_succ, List.foldl_append, List.foldl_cons, List.foldl_nil]
      rw [dif_pos hmlt]
      by_cases hz : zid a = (m : ℤ)
      · rw [if_pos hz, dif_pos (by omega)]
        simp only [hz, Int.toNat_natCast]
      · rw [if_neg hz, ih hm2]
        by_cases h2 : 0 ≤ zid a ∧ zid a < (m : ℤ)
        · rw [dif_pos h2, dif_pos (by omega)]
        · rw [dif_neg h2, dif_neg (by omega)]

/-- Pointwise characterisation of `EMLE._gpr`: the output entry of an atom is
its species prediction when its species id is a valid index, else the initial
zero. -/
theorem gpr_apply {nZ maxRef D nA : ℕ} (nRef : Fin nZ → ℕ)
    (rf : Fin nZ → Fin maxRef → Fin D → ℝ) (refMean : Fin nZ → ℝ)
    (c : Fin nZ → Fin maxRef → ℝ) (feat : Fin nA → Fin D → ℝ)
    (zid : Fin nA → ℤ) (a : Fin nA) :
    gpr nRef rf refMean c feat zid a
    = if h : 0 ≤ zid a ∧ zid a < (nZ : ℤ) then
        gpr_pred nRef rf refMean c feat ⟨(zid a).toNat, by omega⟩ a
      else 0 :=
  gpr_foldl_aux nRef rf refMean c feat zid nZ le_rfl a

/-- `EMLE._gpr` on an atom whose species id is the valid index `z`. -/
theorem gpr_apply_valid {nZ maxRef D nA : ℕ} (nRef : Fin nZ → ℕ)
    (rf : Fin nZ → Fin maxRef → Fin D → ℝ) (refMean : Fin nZ → ℝ)
    (c : Fin nZ → Fin maxRef → ℝ) (feat : Fin nA → Fin D → ℝ)
    (zid : Fin nA → ℤ) (a : Fin nA) (z : Fin nZ)
    (hz : zid a = ((z : ℕ) : ℤ)) :
    gpr nRef rf refMean c feat zid a = gpr_pred nRef rf refMean c feat z a := by
  have hlt : (z : ℕ) < nZ := z.isLt
  rw [gpr_apply, dif_pos (by omega)]
  simp only [show (zid a).toNat = (z : ℕ) from by omega, Fin.eta]

/-- `EMLE._gpr` on an atom whose species id is out of range (for example the
sentinel `-1`): the entry keeps the initial zero. -/
theorem gpr_apply_invalid {nZ maxRef D nA : ℕ} (nRef : Fin nZ → ℕ)
    (rf : Fin nZ → Fin maxRef → Fin D → ℝ) (refMean : Fin nZ → ℝ)
    (c : Fin nZ → Fin maxRef → ℝ) (feat : Fin nA → Fin D → ℝ)
    (zid : Fin nA → ℤ) (a : Fin nA)
    (hz : zid a < 0 ∨ (nZ : ℤ) ≤ zid a) :
    gpr nRef rf refMean c feat zid a = 0 := by
  rw [gpr_apply, dif_neg (by omega)]

/-- Claim C7: converting a position from Angstrom to Bohr by the fixed
constant of `EMLE.forward` and dividing by the same constant recovers the
original value exactly over exact arithmetic. -/
theorem angstrom_bohr_roundtrip (x : ℝ) :
    x * ANGSTROM_TO_BOHR / ANGSTROM_TO_BOHR = x :=
  mul_div_cancel_right₀ x (by norm_num [ANGSTROM_TO_BOHR])

/-- Claim C4: for an atom of species `z` with `nRef z > 0`, the GPR
prediction is the kernel sum over the first `nRef z` reference vectors with
the species-`z` coefficients plus the species-`z` mean; reference data beyond
index `nRef z` never influences the result; and the entry at an atom depends
only on that atom's own feature vector and species id. -/
theorem gpr_species_formula {nZ maxRef D nA : ℕ} (nRef : Fin nZ → ℕ)
    (rf : Fin nZ → Fin maxRef → Fin D → ℝ) (refMean : Fin nZ → ℝ)
    (c : Fin nZ → Fin maxRef → ℝ) (feat : Fin nA → Fin D → ℝ)
    (zid : Fin nA → ℤ) (a : Fin nA) (z : Fin nZ)
    (hz : zid a = ((z : ℕ) : ℤ)) (hn : 0 < nRef z) :
    (gpr nRef rf refMean c feat zid a
      = (∑ j : Fin maxRef,
          if (j : ℕ) < nRef z then (∑ d, feat a d * rf z j d) ^ 2 * c z j else 0)
        + refMean z)
  ∧ (∀ (rf2 : Fin nZ → Fin maxRef → Fin D → ℝ) (c2 : Fin nZ → Fin maxRef → ℝ),
      (∀ j : Fin maxRef, (j : ℕ) < nRef z → rf2 z j = rf z j) →
      (∀ j : Fin maxRef, (j : ℕ) < nRef z → c2 z j = c z j) →
      gpr nRef rf2 refMean c2 feat zid a = gpr nRef rf refMean c feat zid a)
  ∧ (∀ (feat2 : Fin nA → Fin D → ℝ) (zid2 : Fin nA → ℤ),
      feat2 a = feat a → zid2 a = zid a →
      gpr nRef rf refMean c feat2 zid2 a = gpr nRef rf refMean c feat zid a) := by
  refine ⟨?_, ?_, ?_⟩
  · rw [gpr_apply_valid nRef rf refMean c feat zid a z hz]
    unfold gpr_pred
    congr 1
    refine Finset.sum_congr rfl fun j _ => ?_
    by_cases hj : (j : ℕ) < nRef z <;> simp [hj, mul_comm]
  · intro rf2 c2 h1 h2
    rw [gpr_apply_valid nRef rf2 refMean c2 feat zid a z hz,
      gpr_apply_valid nRef rf refMean c feat zid a z hz]
    unfold gpr_pred
    congr 1
    refine Finset.sum_congr rfl fun j _ => ?_
    by_cases hj : (j : ℕ) < nRef z
    · rw [if_pos hj, if_pos hj, h1 j hj, h2 j hj]
    · rw [if_neg hj, if_neg hj]
  · intro feat2 zid2 hf hzd
    rw [gpr_apply_valid nRef rf refMean c feat2 zid2 a z (hzd.trans hz),
      gpr_apply_valid nRef rf refMean c feat zid a z hz]
    unfold gpr_pred
    simp only [hf]

/-- Witness for C4 at a concrete one-atom, one-species instance. -/
theorem gpr_species_formula_witness :
    (zidW1 0 = (((0 : Fin 1) : ℕ) : ℤ) ∧ 0 < nRefW1 0)
  ∧ gpr nRefW1 rfW1 rmW1 cW1 featW1 zidW1 0
      = (∑ j : Fin 1,
          if (j : ℕ) < nRefW1 0 then (∑ d, featW1 0 d * rfW1 0 j d) ^ 2 * cW1 0 j else 0)
        + rmW1 0 :=
  ⟨⟨rfl, by decide⟩,
    (gpr_species_formula nRefW1 rfW1 rmW1 cW1 featW1 zidW1 0 0 rfl (by decide)).1⟩

/-- Claim C6: `EMLE._gpr` is permutation-equivariant: applying it to the
permuted features and species ids yields the permutation of the original
output. -/
theorem gpr_permutation_equivariant {nZ maxRef D nA : ℕ} (nRef : Fin nZ → ℕ)
    (rf : Fin nZ → Fin maxRef → Fin D → ℝ) (refMean : Fin nZ → ℝ)
    (c : Fin nZ → Fin maxRef → ℝ) (feat : Fin nA → Fin D → ℝ)
    (zid : Fin nA → ℤ) (pi : Equiv.Perm (Fin nA)) (a : Fin nA) :
    gpr nRef rf refMean c (fun b => feat (pi b)) (fun b => zid (pi b)) a
      = gpr nRef rf refMean c feat zid (pi a) := by
  rw [gpr_apply nRef rf refMean c (fun b => feat (pi b)) (fun b => zid (pi b)) a,
    gpr_apply nRef rf refMean c feat zid (pi a)]
  by_cases h : 0 ≤ zid (pi a) ∧ zid (pi a) < (nZ : ℤ)
  · rw [dif_pos h, dif_pos h]
    rfl
  · rw [dif_neg h, dif_neg h]

/-- Inner-block entry of the bordered QEq matrix. -/
theorem get_A_QEq_castSucc {n : ℕ} (xyz : Fin n → Fin 3 → ℝ) (s : Fin n → ℝ)
    (aQEq : ℝ) (i j : Fin n) :
    get_A_QEq xyz s aQEq i.castSucc j.castSucc = A_QEq_inner xyz s aQEq i j := by
  unfold get_A_QEq
  rw [dif_pos (show ((i.castSucc : Fin (n + 1)) : ℕ) < n by simpa using i.isLt),
    dif_pos (show ((j.castSucc : Fin (n + 1)) : ℕ) < n by simpa using j.isLt)]
  rfl

/-- Final-column entries of the bordered QEq matrix are 1. -/
theorem get_A_QEq_last_col {n : ℕ} (xyz : Fin n → Fin 3 → ℝ) (s : Fin n → ℝ)
    (aQEq : ℝ) (i : Fin n) :
    get_A_QEq xyz s aQEq i.castSucc (Fin.last n) = 1 := by
  unfold get_A_QEq
  rw [dif_pos (show ((i.castSucc : Fin (n + 1)) : ℕ) < n by simpa using i.isLt),
    dif_neg (by simp)]

/-- Final-row entries of the bordered QEq matrix are 1. -/
theorem get_A_QEq_last_row {n : ℕ} (xyz : Fin n → Fin 3 → ℝ) (s : Fin n → ℝ)
    (aQEq : ℝ) (j : Fin n) :
    get_A_QEq xyz s aQEq (Fin.last n) j.castSucc = 1 := by
  unfold get_A_QEq
  rw [dif_neg (by simp), if_pos (show ((j.castSucc : Fin (n + 1)) : ℕ) < n by simpa using j.isLt)]

/-- The bottom-right entry of the bordered QEq matrix is 0. -/
theorem get_A_QEq_last_last {n : ℕ} (xyz : Fin n → Fin 3 → ℝ) (s : Fin n → ℝ)
    (aQEq : ℝ) :
    get_A_QEq xyz s aQEq (Fin.last n) (Fin.last n) = 0 := by
  unfold get_A_QEq
  rw [dif_neg (by simp), if_neg (by simp)]

/-- The last entry of the QEq right-hand side is the total charge. -/
theorem qeq_b_last {n : ℕ} (chi : Fin n → ℝ) (qTotal : ℝ) :
    qeq_b chi qTotal (Fin.last n) = qTotal := by
  unfold qeq_b
  rw [dif_neg (by simp)]

/-- Diagonal of the inner QEq block: the Gaussian self-energy, regardless of
the raw kernel value at zero distance. -/
theorem A_QEq_inner_diag {n : ℕ} (xyz : Fin n → Fin 3 → ℝ) (s : Fin n → ℝ)
    (aQEq : ℝ) (i : Fin n) :
    A_QEq_inner xyz s aQEq i i = 1 / (s i * aQEq * Real.sqrt Real.pi) := by
  unfold A_QEq_inner
  simp

/-- Off-diagonal of the inner QEq block: the Gaussian-damped Coulomb
kernel. -/
theorem A_QEq_inner_off {n : ℕ} (xyz : Fin n → Fin 3 → ℝ) (s : Fin n → ℝ)
    (aQEq : ℝ) (i j : Fin n) (h : i ≠ j) :
    A_QEq_inner xyz s aQEq i j
      = get_T0_gaussian (r_inv xyz i j) (r_mat xyz i j)
          (Real.sqrt ((s i * aQEq) ^ 2 + (s j * aQEq) ^ 2)) := by
  unfold A_QEq_inner
  simp [h]

/-- Claim C2: whenever the bordered QEq matrix is nonsingular, the charges
returned by `EMLE._get_q` sum exactly to the configured total charge (the
constraint row of ones with zero bottom-right entry enforces it). -/
theorem qeq_charge_conservation {n : ℕ} (xyz : Fin n → Fin 3 → ℝ)
    (s chi : Fin n → ℝ) (aQEq qTotal : ℝ)
    (h : IsUnit (get_A_QEq xyz s aQEq).det) :
    ∑ i, get_q xyz s chi aQEq qTotal i = qTotal := by
  have hx : (get_A_QEq xyz s aQEq).mulVec
      ((get_A_QEq xyz s aQEq)⁻¹.mulVec (qeq_b chi qTotal)) = qeq_b chi qTotal := by
    rw [Matrix.mulVec_mulVec, Matrix.mul_nonsing_inv _ h, Matrix.one_mulVec]
  have hlast := congrFun hx (Fin.last n)
  rw [qeq_b_last] at hlast
  simp only [Matrix.mulVec, Matrix.dotProduct] at hlast
  rw [Fin.sum_univ_castSucc] at hlast
  simp only [get_A_QEq_last_row, get_A_QEq_last_last, one_mul, zero_mul,
    add_zero] at hlast
  exact hlast

/-- Witness for C2: a one-atom system, whose bordered matrix has determinant
`-1`; the single returned charge equals the requested total charge 3. -/
theorem qeq_charge_conservation_witness :
    IsUnit (get_A_QEq xyzW1 (fun _ => 1) 1).det
  ∧ ∑ i, get_q xyzW1 (fun _ => 1) (fun _ => 0) 1 3 i = 3 := by
  have hdet : (get_A_QEq xyzW1 (fun _ => 1) 1).det = -1 := by
    rw [Matrix.det_fin_two]
    have e0 : (0 : Fin 2) = (0 : Fin 1).castSucc := rfl
    have e1 : (1 : Fin 2) = Fin.last 1 := rfl
    rw [e0, e1, get_A_QEq_last_col, get_A_QEq_last_row, get_A_QEq_last_last]
    ring
  have hunit : IsUnit (get_A_QEq xyzW1 (fun _ => 1) 1).det := by
    rw [hdet]
    exact isUnit_one.neg
  exact ⟨hunit, qeq_charge_conservation xyzW1 (fun _ => 1) (fun _ => 0) 1 3 hunit⟩

/-- Claim C3: structure of the bordered QEq matrix of `EMLE._get_A_QEq` --
Gaussian-damped Coulomb entries off the diagonal (with the broadened width
combination), the Gaussian self-energy on the diagonal, a constraint row and
column of ones with zero bottom-right entry -- and `EMLE._get_q` returns the
first `N` entries of the solution, discarding the Lagrange multiplier. -/
theorem qeq_matrix_structure {n : ℕ} (xyz : Fin n → Fin 3 → ℝ)
    (s chi : Fin n → ℝ) (aQEq qTotal : ℝ) :
    (∀ i j : Fin n, i ≠ j →
      get_A_QEq xyz s aQEq i.castSucc j.castSucc
        = get_T0_gaussian (r_inv xyz i j) (r_mat xyz i j)
            (Real.sqrt ((s i * aQEq) ^ 2 + (s j * aQEq) ^ 2)))
  ∧ (∀ i : Fin n, get_A_QEq xyz s aQEq i.castSucc i.castSucc
        = 1 / (s i * aQEq * Real.sqrt Real.pi))
  ∧ (∀ i : Fin n, get_A_QEq xyz s aQEq (Fin.last n) i.castSucc = 1
        ∧ get_A_QEq xyz s aQEq i.castSucc (Fin.last n) = 1)
  ∧ get_A_QEq xyz s aQEq (Fin.last n) (Fin.last n) = 0
  ∧ (∀ i : Fin n, get_q xyz s chi aQEq qTotal i
        = (get_A_QEq xyz s aQEq)⁻¹.mulVec (qeq_b chi qTotal) i.castSucc) := by
  refine ⟨fun i j hij => ?_, fun i => ?_,
    fun i => ⟨get_A_QEq_last_row xyz s aQEq i, get_A_QEq_last_col xyz s aQEq i⟩,
    get_A_QEq_last_last xyz s aQEq, fun i => rfl⟩
  · rw [get_A_QEq_castSucc, A_QEq_inner_off xyz s aQEq i j hij]
  · rw [get_A_QEq_castSucc, A_QEq_inner_diag]

/-- Witness for C3 at a concrete two-atom geometry. -/
theorem qeq_matrix_structure_witness :
    ((0 : Fin 2) ≠ 1
      ∧ get_A_QEq xyzW2 (fun _ => 1) 1 ((0 : Fin 2).castSucc) ((1 : Fin 2).castSucc)
          = get_T0_gaussian (r_inv xyzW2 0 1) (r_mat xyzW2 0 1)
              (Real.sqrt (((1 : ℝ) * 1) ^ 2 + ((1 : ℝ) * 1) ^ 2)))
  ∧ get_A_QEq xyzW2 (fun _ => 1) 1 (Fin.last 2) (Fin.last 2) = 0 :=
  ⟨⟨by decide,
      (qeq_matrix_structure xyzW2 (fun _ => 1) (fun _ => 0) 1 0).1 0 1 (by decide)⟩,
    (qeq_matrix_structure xyzW2 (fun _ => 1) (fun _ => 0) 1 0).2.2.2.1⟩

/-- Claim C10: at a coincident atom pair the guarded branch of
`EMLE._get_r_data` makes the inverse distance exactly 0, so the Gaussian T0
kernel and the dipole tensors are 0 there (no division by zero is ever
materialised), and the QEq diagonal is determined solely by the self-energy
term. -/
theorem r_data_coincident_guard {n : ℕ} (xyz : Fin n → Fin 3 → ℝ)
    (i j : Fin n) (h : r_mat xyz i j = 0) :
    r_inv xyz i j = 0
  ∧ (∀ sm : ℝ, get_T0_gaussian (r_inv xyz i j) (r_mat xyz i j) sm = 0)
  ∧ (∀ c c2 : Fin 3, t21 xyz (i, c) (j, c2) = 0 ∧ t22 xyz (i, c) (j, c2) = 0)
  ∧ (∀ (s : Fin n → ℝ) (aQEq : ℝ) (i0 : Fin n),
      A_QEq_inner xyz s aQEq i0 i0 = 1 / (s i0 * aQEq * Real.sqrt Real.pi)) := by
  have hri : r_inv xyz i j = 0 := by
    unfold r_inv
    rw [if_pos h]
  refine ⟨hri, fun sm => ?_, fun c c2 => ⟨?_, ?_⟩,
    fun s aQEq i0 => A_QEq_inner_diag xyz s aQEq i0⟩
  · unfold get_T0_gaussian
    rw [hri, zero_mul]
  · unfold t21
    rw [hri]
    ring
  · unfold t22
    rw [hri]
    ring

/-- Witness for C10: two atoms at the same position. -/
theorem r_data_coincident_guard_witness :
    r_mat xyzW0 0 1 = 0 ∧ r_inv xyzW0 0 1 = 0 := by
  have h : r_mat xyzW0 0 1 = 0 := by
    unfold r_mat xyzW0
    simp
  exact ⟨h, (r_data_coincident_guard xyzW0 0 1 h).1⟩

/-- The distance matrix is symmetric. -/
theorem r_mat_symm {n : ℕ} (xyz : Fin n → Fin 3 → ℝ) (i j : Fin n) :
    r_mat xyz i j = r_mat xyz j i := by
  unfold r_mat
  congr 1
  exact Finset.sum_congr rfl fun c _ => by ring

/-- The guarded inverse-distance matrix is symmetric. -/
theorem r_inv_symm {n : ℕ} (xyz : Fin n → Fin 3 → ℝ) (i j : Fin n) :
    r_inv xyz i j = r_inv xyz j i := by
  unfold r_inv
  rw [r_mat_symm]

/-- The reduced Thole distance is symmetric. -/
theorem au3_symm {n : ℕ} (xyz : Fin n → Fin 3 → ℝ) (s qVal k : Fin n → ℝ)
    (aThole : ℝ) (b i : Fin n) :
    au3 xyz s qVal k aThole b i = au3 xyz s qVal k aThole i b := by
  unfold au3
  rw [r_mat_symm, mul_comm (alpha s qVal k b * aThole)]

/-- The undamped tensor `t21` is symmetric under swapping its flattened
indices. -/
theorem t21_symm {n : ℕ} (xyz : Fin n → Fin 3 → ℝ) (p q : Fin n × Fin 3) :
    t21 xyz p q = t21 xyz q p := by
  unfold t21
  rw [r_inv_symm]
  by_cases h : p.2 = q.2
  · rw [if_pos h, if_pos h.symm]
  · rw [if_neg h, if_neg (Ne.symm h)]

/-- The undamped tensor `t22` is symmetric under swapping its flattened
indices. -/
theorem t22_symm {n : ℕ} (xyz : Fin n → Fin 3 → ℝ) (p q : Fin n × Fin 3) :
    t22 xyz p q = t22 xyz q p := by
  unfold t22
  rw [r_inv_symm]
  ring

/-- Claim C5: for any geometry with pairwise-distinct atom positions and
strictly positive effective polarizabilities, the Thole system matrix of
`EMLE._get_A_thole` is symmetric, and each of the three diagonal entries of
atom `i` equals `1 / alpha i`, overwriting any raw-kernel diagonal value. -/
theorem thole_matrix_symm_diag {n : ℕ} (xyz : Fin n → Fin 3 → ℝ)
    (s qVal k : Fin n → ℝ) (aThole : ℝ)
    (hdist : ∀ i j : Fin n, i ≠ j → xyz i ≠ xyz j)
    (halpha : ∀ i, 0 < alpha s qVal k i) :
    (∀ p q, get_A_thole xyz s qVal k aThole p q = get_A_thole xyz s qVal k aThole q p)
  ∧ (∀ (i : Fin n) (c : Fin 3),
      get_A_thole xyz s qVal k aThole (i, c) (i, c) = 1 / alpha s qVal k i) := by
  constructor
  · intro p q
    by_cases hpq : p = q
    · rw [hpq]
    · unfold get_A_thole
      rw [if_neg hpq, if_neg (Ne.symm hpq)]
      rw [t21_symm xyz p q, t22_symm xyz p q, au3_symm xyz s qVal k aThole p.1 q.1]
      ring
  · intro i c
    unfold get_A_thole
    rw [if_pos rfl]
    simp

/-- Witness for C5: a single atom with `q_val = -1`, `s = 1`, `k = 1`, so
`alpha = 60 > 0`. -/
theorem thole_matrix_symm_diag_witness :
    get_A_thole xyzW1 (fun _ => 1) (fun _ => -1) (fun _ => 1) 1 (0, 0) (0, 0)
      = 1 / alpha (fun _ : Fin 1 => (1 : ℝ)) (fun _ => -1) (fun _ => 1) 0
  ∧ get_A_thole xyzW1 (fun _ => 1) (fun _ => -1) (fun _ => 1) 1 (0, 0) (0, 1)
      = get_A_thole xyzW1 (fun _ => 1) (fun _ => -1) (fun _ => 1) 1 (0, 1) (0, 0) := by
  have halpha : ∀ i : Fin 1, 0 < alpha (fun _ => 1) (fun _ => -1) (fun _ => 1) i := by
    intro i
    unfold alpha
    norm_num
  have hd : ∀ i j : Fin 1, i ≠ j → xyzW1 i ≠ xyzW1 j :=
    fun i j h => absurd (Subsingleton.elim i j) h
  exact ⟨(thole_matrix_symm_diag xyzW1 _ _ _ 1 hd halpha).2 0 0,
    (thole_matrix_symm_diag xyzW1 _ _ _ 1 hd halpha).1 (0, 0) (0, 1)⟩

/-- Claim C9: for a species `z` with a single reference (`nRef z = 1`, with
zero-padded reference data beyond it), the reference mean is the single
reference value, the one weight coefficient that is ever read (index 0) is
zero, and the GPR prediction for an atom of species `z` equals the single
reference's value for every query feature vector. -/
theorem single_reference_prediction {nZ mR D nA : ℕ} (nRef : Fin nZ → ℕ)
    (rf : Fin nZ → Fin (mR + 1) → Fin D → ℝ) (vals : Fin nZ → Fin (mR + 1) → ℝ)
    (sigma : ℝ) (zid : Fin nA → ℤ) (a : Fin nA) (z : Fin nZ)
    (h1 : nRef z = 1) (hs : sigma ≠ 0)
    (hrf : ∀ j : Fin (mR + 1), j ≠ 0 → rf z j = fun _ => 0)
    (hv : ∀ j : Fin (mR + 1), j ≠ 0 → vals z j = 0)
    (hz : zid a = ((z : ℕ) : ℤ)) :
    ref_mean_calc vals nRef z = vals z 0
  ∧ ref_coeffs rf sigma vals nRef z 0 = 0
  ∧ (∀ feat : Fin nA → Fin D → ℝ,
      gpr nRef rf (ref_mean_calc vals nRef) (ref_coeffs rf sigma vals nRef) feat zid a
        = vals z 0) := by
  have hsum : (∑ j, vals z j) = vals z 0 := by
    rw [Fin.sum_univ_succ]
    have hsucc : ∀ j : Fin mR, vals z j.succ = 0 := fun j => hv j.succ (Fin.succ_ne_zero j)
    simp [hsucc]
  have hmean : ref_mean_calc vals nRef z = vals z 0 := by
    unfold ref_mean_calc
    rw [hsum, h1]
    norm_num
  have hsig : 0 < sigma ^ 2 :=
    lt_of_le_of_ne (sq_nonneg sigma) (Ne.symm (pow_ne_zero 2 hs))
  have hdiag : Kmat rf z + sigma ^ 2 • (1 : Matrix (Fin (mR + 1)) (Fin (mR + 1)) ℝ)
      = Matrix.diagonal
          (fun j => (if j = 0 then (∑ d, rf z 0 d * rf z 0 d) ^ 2 else 0) + sigma ^ 2) := by
    ext j j2
    by_cases hjj : j = j2
    · subst hjj
      rw [Matrix.diagonal_apply_eq]
      by_cases hj0 : j = 0
      · subst hj0
        simp [Kmat, Matrix.add_apply, Matrix.smul_apply, Matrix.one_apply_eq]
      · rw [if_neg hj0]
        have hz0 : rf z j = fun _ => 0 := hrf j hj0
        simp [Kmat, Matrix.add_apply, Matrix.smul_apply, Matrix.one_apply_eq, hz0]
    · rw [Matrix.diagonal_apply_ne _ hjj]
      have hksum : (∑ d, rf z j d * rf z j2 d) = 0 := by
        by_cases hj0 : j = 0
        · have hj20 : j2 ≠ 0 := fun h2 => hjj (hj0.trans h2.symm)
          rw [hrf j2 hj20]
          simp
        · rw [hrf j hj0]
          simp
      simp [Kmat, Matrix.add_apply, Matrix.smul_apply, Matrix.one_apply_ne hjj, hksum]
  have hdvne : ∀ j : Fin (mR + 1),
      ((if j = 0 then (∑ d, rf z 0 d * rf z 0 d) ^ 2 else 0) + sigma ^ 2) ≠ 0 := by
    intro j
    by_cases hj0 : j = 0
    · rw [if_pos hj0]
      exact ne_of_gt (add_pos_of_nonneg_of_pos (sq_nonneg _) hsig)
    · rw [if_neg hj0, zero_add]
      exact ne_of_gt hsig
  have hinv : get_Kinv rf sigma z
      = Matrix.diagonal
          (fun j => ((if j = 0 then (∑ d, rf z 0 d * rf z 0 d) ^ 2 else 0) + sigma ^ 2)⁻¹) := by
    unfold get_Kinv
    rw [hdiag]
    apply Matrix.inv_eq_right_inv
    rw [Matrix.diagonal_mul_diagonal]
    have hone : (fun j : Fin (mR + 1) =>
          ((if j = 0 then (∑ d, rf z 0 d * rf z 0 d) ^ 2 else 0) + sigma ^ 2)
          * ((if j = 0 then (∑ d, rf z 0 d * rf z 0 d) ^ 2 else 0) + sigma ^ 2)⁻¹)
        = fun _ => (1 : ℝ) := funext fun j => mul_inv_cancel₀ (hdvne j)
    rw [hone, Matrix.diagonal_one]
  have hc0 : ref_coeffs rf sigma vals nRef z 0 = 0 := by
    unfold ref_coeffs
    rw [hinv, Matrix.mulVec_diagonal]
    rw [hmean, sub_self, mul_zero]
  refine ⟨hmean, hc0, fun feat => ?_⟩
  rw [gpr_apply_valid nRef rf (ref_mean_calc vals nRef)
    (ref_coeffs rf sigma vals nRef) feat zid a z hz]
  unfold gpr_pred
  rw [hmean]
  have hzero : ∀ j : Fin mR,
      (if ((j.succ : Fin (mR + 1)) : ℕ) < nRef z then
        (∑ d, rf z j.succ d * feat a d) ^ 2 * ref_coeffs rf sigma vals nRef z j.succ
      else 0) = 0 := by
    intro j
    rw [if_neg]
    rw [h1, Fin.val_succ]
    omega
  rw [Fin.sum_univ_succ, if_pos (by simp [h1]), hc0, mul_zero]
  rw [Finset.sum_congr rfl fun j _ => hzero j]
  simp

/-- Witness for C9 at a concrete one-species instance with two reference
slots, of which only the first is populated (value 5). -/
theorem single_reference_prediction_witness :
    ref_mean_calc valsW (fun _ => 1) 0 = valsW 0 0
  ∧ ref_coeffs rfW2 1 valsW (fun _ => 1) 0 0 = 0
  ∧ gpr (fun _ => 1) rfW2 (ref_mean_calc valsW (fun _ => 1))
      (ref_coeffs rfW2 1 valsW (fun _ => 1)) featW1 zidW1 0 = valsW 0 0 := by
  have h := single_reference_prediction (fun _ => 1) rfW2 valsW 1 zidW1 0 0 rfl
    one_ne_zero (fun j _ => rfl) (fun j hj => if_neg hj) rfl
  exact ⟨h.1, h.2.1, h.2.2 featW1⟩

/-- Counterexample to C9 as stated: with one reference (value 5) in a
two-slot zero-padded reference array, the shifted reference value at the
padding index 1 is `-5`, and so is the weight coefficient at index 1 -- the
shifted values and coefficients are not identically zero (only the entry at
index 0, the one `EMLE._gpr` reads, is). -/
theorem single_reference_counterexample :
    ref_coeffs rfW2 1 valsW (fun _ => 1) 0 1 = -5
  ∧ valsW 0 1 - ref_mean_calc valsW (fun _ => 1) 0 = -5 := by
  have hmean : ref_mean_calc valsW (fun _ => 1) 0 = 5 := by
    unfold ref_mean_calc valsW
    rw [Fin.sum_univ_two]
    norm_num
  have hK : Kmat rfW2 0 + (1 : ℝ) ^ 2 • (1 : Matrix (Fin 2) (Fin 2) ℝ) = 1 := by
    ext j j2
    unfold Kmat rfW2
    simp
  have hKinv : get_Kinv rfW2 1 0 = 1 := by
    unfold get_Kinv
    rw [hK]
    exact Matrix.inv_eq_right_inv (one_mul 1)
  constructor
  · unfold ref_coeffs
    rw [hKinv, Matrix.one_mulVec, hmean]
    simp [valsW]
  · rw [hmean]
    simp [valsW]

/-- Claim C1: with an empty external point-charge list, `EMLE.forward`
returns exactly the zero 2-vector before any solver runs, and
`ANI2xEMLE.forward` returns exactly `(E_vac, 0, 0)` with the in-vacuo term
unchanged. -/
theorem forward_empty_mm :
    (∀ (nQM nZ maxRef D : ℕ) (P : EMLEParams nZ maxRef D)
      (aevC : (Fin nQM → Fin 3 → ℝ) → Fin nQM → Fin D → ℝ)
      (z : Fin nQM → ℤ) (cm : Fin 0 → ℝ) (xq : Fin nQM → Fin 3 → ℝ)
      (xm : Fin 0 → Fin 3 → ℝ),
      EMLE_forward P aevC z cm xq xm = some (0, 0))
  ∧ (∀ (nQM nZ maxRef D : ℕ) (P : EMLEParams nZ maxRef D)
      (ani : (Fin nQM → ℤ) → (Fin nQM → Fin 3 → ℝ) → ℝ)
      (aevC : (Fin nQM → Fin 3 → ℝ) → Fin nQM → Fin D → ℝ)
      (z : Fin nQM → ℤ) (cm : Fin 0 → ℝ) (xq : Fin nQM → Fin 3 → ℝ)
      (xm : Fin 0 → Fin 3 → ℝ),
      (∀ a, speciesInBounds (z a)) →
      ANI2xEMLE_forward P ani aevC z cm xq xm = some (ani z xq, 0, 0)) := by
  constructor
  · intro nQM nZ maxRef D P aevC z cm xq xm
    unfold EMLE_forward
    rw [if_pos rfl]
  · intro nQM nZ maxRef D P ani aevC z cm xq xm hz
    unfold ANI2xEMLE_forward
    rw [dif_pos hz, if_pos rfl]

/-- Witness for C1 at a concrete one-atom instance (the external ANI2x model
returns 1). -/
theorem forward_empty_mm_witness :
    (∀ a : Fin 1, speciesInBounds ((fun _ => (1 : ℤ)) a))
  ∧ ANI2xEMLE_forward PW aniW aevW (fun _ => (1 : ℤ)) (fun _ : Fin 0 => (0 : ℝ))
      xyzW1 (fun _ : Fin 0 => fun _ => 0)
      = some (aniW (fun _ => (1 : ℤ)) xyzW1, 0, 0)
  ∧ EMLE_forward PW aevW (fun _ => (1 : ℤ)) (fun _ : Fin 0 => (0 : ℝ))
      xyzW1 (fun _ : Fin 0 => fun _ => 0) = some (0, 0) :=
  ⟨by decide,
    forward_empty_mm.2 1 1 1 1 PW aniW aevW (fun _ => (1 : ℤ))
      (fun _ : Fin 0 => (0 : ℝ)) xyzW1 (fun _ : Fin 0 => fun _ => 0) (by decide),
    forward_empty_mm.1 1 1 1 1 PW aevW (fun _ => (1 : ℤ))
      (fun _ : Fin 0 => (0 : ℝ)) xyzW1 (fun _ : Fin 0 => fun _ => 0)⟩

/-- Counterexample to C8: the atomic number 2 (helium) is not in the
supported set `[1, 6, 7, 8, 16]`, yet the species lookup succeeds with the
sentinel value `-1` (no error is raised), and `EMLE.forward` proceeds to
compute energies with it instead of failing fast. -/
theorem species_lookup_counterexample :
    species_lookup 2 = some (-1)
  ∧ (EMLE_forward PW aevW (fun _ => (2 : ℤ)) (fun _ : Fin 1 => (1 : ℝ))
      xyzW1 xyzW1).isSome = true := by
  constructor
  · decide
  · unfold EMLE_forward
    rw [if_neg one_ne_zero, dif_pos (by decide)]
    rfl

/-- Claim C8 as amended: only atomic numbers outside the index range of the
length-17 species table make the lookup fail; unsupported atomic numbers
inside the table map to the sentinel `-1` without any error and the
evaluation proceeds -- the GPR loop leaves such atoms at the initial value 0
and per-species tensors indexed at `-1` wrap around to the last species. -/
theorem species_lookup_amended :
    (∀ z : ℤ, 17 ≤ z → species_lookup z = none)
  ∧ species_lookup 2 = some (-1)
  ∧ (∀ z : ℤ, 0 ≤ z → z < 17 → z ≠ 1 → z ≠ 6 → z ≠ 7 → z ≠ 8 → z ≠ 16 →
      species_map_at z = -1)
  ∧ (∀ (m : ℕ) (v : Fin (m + 1) → ℝ), tindex v (-1) = v (Fin.last m))
  ∧ (∀ (nZ maxRef D nA : ℕ) (nRef : Fin nZ → ℕ)
      (rf : Fin nZ → Fin maxRef → Fin D → ℝ) (refMean : Fin nZ → ℝ)
      (c : Fin nZ → Fin maxRef → ℝ) (feat : Fin nA → Fin D → ℝ)
      (zid : Fin nA → ℤ) (a : Fin nA), zid a = -1 →
      gpr nRef rf refMean c feat zid a = 0) := by
  refine ⟨?_, by decide, ?_, ?_, ?_⟩
  · intro z hz
    unfold species_lookup
    rw [if_neg (fun hb => absurd hb.2 (by omega))]
  · intro z h0 h17 hn1 hn6 hn7 hn8 hn16
    interval_cases z <;> first | (exact absurd rfl (by assumption)) | decide
  · intro m v
    unfold tindex
    rw [dif_neg (by omega), dif_pos (by omega)]
    congr 1
    apply Fin.ext
    simp only [Fin.val_last]
    omega
  · intro nZ maxRef D nA nRef rf refMean c feat zid a hza
    exact gpr_apply_invalid nRef rf refMean c feat zid a (Or.inl (by omega))

/-- Witness for the amended C8. -/
theorem species_lookup_amended_witness :
    species_lookup 17 = none ∧ species_map_at 3 = -1
  ∧ tindex vW (-1) = vW (Fin.last 4)
  ∧ gpr nRefW1 rfW1 rmW1 cW1 featW1 (fun _ => (-1 : ℤ)) 0 = 0 := by
  refine ⟨species_lookup_amended.1 17 le_rfl, ?_,
    species_lookup_amended.2.2.2.1 4 vW,
    species_lookup_amended.2.2.2.2 1 1 1 1 nRefW1 rfW1 rmW1 cW1 featW1
      (fun _ => (-1 : ℤ)) 0 rfl⟩
  exact species_lookup_amended.2.2.1 3 (by decide) (by decide) (by decide)
    (by decide) (by decide) (by decide) (by decide)

end EmleEngine
